import Mathlib

/-!
Verification development for the Cerebot repository (a Discord chat bot).

The definitions below are a shallow embedding of the Python sources
`cerebot/discord.py` and `cerebot/config.py`.  Pure computations are
translated to Lean functions; exception-raising code is translated to
`Except String`-valued functions (`.error msg` models a raised
`BotCommandException` / configuration error); the object state that the
methods consult (configuration, servers, users, the channel-source cache)
is passed explicitly.  Each definition keeps the name of the Python
function it embeds where Lean allows it.
-/

set_option autoImplicit false

namespace Cerebot

/-! ### Discord data model

`discord.py` objects are modelled structurally: a `Role` is compared by its
fields (the discord library compares roles by id; the fields below include
the data the bot reads, and structural equality plays the part of object
identity), a `DUser` models a discord `Member`/`User` with the attributes
the bot reads (`name`, `bot`, `roles`), and a `DServer` carries the data
of a discord server consulted by the bot: its member lookup table
(`get_member`, keyed by the configured id string), its role list, the
roles of the bot's own member (`server.me.roles`) and the permissions of
`server.default_role`. -/

structure Role where
  rid : Nat
  name : String
  position : Nat
  is_everyone : Bool
  permissions : Nat
deriving DecidableEq, Repr

structure DUser where
  name : String
  bot : Bool
  roles : List Role
deriving DecidableEq, Repr

structure DServer where
  members : List (String × DUser)
  roles : List Role
  me_roles : List Role
  default_role_permissions : Nat
deriving DecidableEq, Repr

/-- Embeds `discord.Server.get_member(u)`: look a member up by the id string `u`;
`none` when the server has no such member. -/
def DServer.get_member (s : DServer) (u : String) : Option DUser :=
  (s.members.find? (fun p => p.1 == u)).map (fun p => p.2)

/-- The configuration data consulted by the permission checks.  In the
Python code `conf.get("admins")` / `conf.get("ignored_users")` yield
`None` when the key is absent and the code only ever tests falsiness and
iterates, so an absent key and an empty list behave identically; both are
modelled by `[]`. -/
structure BotConf where
  admins : List String
  ignored_users : List String
deriving DecidableEq, Repr

/-! ### DiscordSource permission checks (`cerebot/discord.py`)

The methods read `self.manager.conf` and `self.manager.servers`, which are
passed explicitly as `conf` and `servers`. -/

/-- Embeds `DiscordSource.user_is_admin`: true when some configured admin id
resolves, on some server the bot is on, to this user. -/
def user_is_admin (conf : BotConf) (servers : List DServer) (user : DUser) : Bool :=
  if conf.admins.isEmpty then false
  else conf.admins.any (fun u => servers.any (fun s => s.get_member u == some user))

/-- Embeds `DiscordSource.user_is_ignored`: true when some configured ignored-user
id resolves, on some server the bot is on, to this user. -/
def user_is_ignored (conf : BotConf) (servers : List DServer) (user : DUser) : Bool :=
  if conf.ignored_users.isEmpty then false
  else conf.ignored_users.any (fun u => servers.any (fun s => s.get_member u == some user))

/-- Embeds `DiscordSource.is_allowed_user`: admins are always allowed; otherwise
bot accounts and ignored users are rejected. -/
def is_allowed_user (conf : BotConf) (servers : List DServer) (user : DUser) : Bool :=
  if user_is_admin conf servers user then true
  else if user.bot then false
  else if user_is_ignored conf servers user then false
  else true

/-! ### Bot command table and restriction checks

An entry of the `bot_commands` dict, restricted to the permission metadata
the restriction checks read (`entry.get(...)` on a missing key is falsy,
modelled by a `false` / `none` field).  The `"args"` grammar and the
`"function"` handler reference play no part in the restriction checks and
are not modelled here. -/

structure CmdEntry where
  require_admin : Bool := false
  require_public_channel : Bool := false
  unlogged : Bool := false
  source_restriction : Option String := none
deriving DecidableEq, Repr

/-- The `bot_commands` table of `cerebot/discord.py`, projected to the
permission metadata of each entry. -/
def bot_commands : List (String × CmdEntry) :=
  [ ("listcommands", { unlogged := true }),
    ("botstatus", { require_admin := true }),
    ("debugmode", { require_admin := true, source_restriction := some "admin" }),
    ("bothelp", { unlogged := true }),
    ("listroles", { require_public_channel := true, unlogged := true }),
    ("addrole", { require_public_channel := true }),
    ("removerole", { require_public_channel := true }),
    ("glasses", { require_public_channel := true, unlogged := true,
                  source_restriction := some "channel" }),
    ("deal", { require_public_channel := true, unlogged := true }),
    ("dance", { require_public_channel := true, unlogged := true }),
    ("botdance", { require_public_channel := true, unlogged := true }),
    ("say", { require_admin := true }),
    ("firestorm", { require_public_channel := true, unlogged := true }),
    ("glaciate", { require_public_channel := true, unlogged := true }) ]

/-- Modelled from the spec: `beem.chat.ChatWatcher.check_bot_command_restrictions`
(the superclass method, not part of this repository) denies a
`requires_admin` command to a non-admin caller with an "admin only"
message (spec 4.2, check 1). -/
def chatwatcher_check_restrictions (conf : BotConf) (servers : List DServer)
    (user : DUser) (entry : CmdEntry) : Except String Unit :=
  if entry.require_admin && !(user_is_admin conf servers user) then
    .error "admin only"
  else .ok ()

/-- Embeds `DiscordSource.check_bot_command_restrictions`: runs the superclass
check, then lets admins bypass the rest, then rejects
`require_public_channel` commands in a private channel.  `isPrivate` is
`self.channel.is_private`. -/
def check_bot_command_restrictions (conf : BotConf) (servers : List DServer)
    (isPrivate : Bool) (user : DUser) (entry : CmdEntry) : Except String Unit := do
  chatwatcher_check_restrictions conf servers user entry
  if user_is_admin conf servers user then
    return
  if entry.require_public_channel && isPrivate then
    throw "This command must be run in a public channel."
  return

/-! ### DiscordManager channel-source cache (`cerebot/discord.py`)

A cached `DiscordSource` is modelled by the data the cache logic reads:
the identity of its channel and its `time_last_message` stamp.  The
manager's `self.sources` set is modelled as a list (the code never relies
on set order; `get_channel_source` scans it linearly). -/

structure ChanSource where
  chanId : Nat
  time_last_message : Int
deriving DecidableEq, Repr

/-- Embeds `_channel_idle_timeout = 30 * 60` seconds. -/
def channel_idle_timeout : Int := 30 * 60

/-- Embeds `DiscordManager.expire_idle_channels`: drop every cached source whose
channel has been idle for at least the timeout
(`current_time - c.time_last_message >= _channel_idle_timeout`). -/
def expire_idle_channels (sources : List ChanSource) (current_time : Int) :
    List ChanSource :=
  sources.filter (fun c => !(channel_idle_timeout ≤ current_time - c.time_last_message))

/-- Embeds `DiscordManager.get_channel_source`: find the cached source of a
channel, if any. -/
def get_channel_source (sources : List ChanSource) (chanId : Nat) : Option ChanSource :=
  sources.find? (fun s => s.chanId == chanId)

/-- Embeds `source.time_last_message = current_time` on the cached source object
found for this channel: update the stamp of the (first) entry for the
channel. -/
def touch_channel_source (sources : List ChanSource) (chanId : Nat) (t : Int) :
    List ChanSource :=
  match sources with
  | [] => []
  | c :: cs =>
      if c.chanId == chanId then { c with time_last_message := t } :: cs
      else c :: touch_channel_source cs chanId t

/-- Embeds `DiscordManager.on_message`, restricted to its cache manipulation: if
not logged in, return unchanged; otherwise expire idle sources, look the
message's channel up, construct a fresh source when the lookup fails,
and stamp the source with the current time.  The returned `Bool` records
whether a fresh `DiscordSource` was constructed.  (The final
`source.read_chat(...)` call does not touch the cache and is outside this
model.) -/
def on_message (loggedIn : Bool) (sources : List ChanSource) (chanId : Nat)
    (current_time : Int) : List ChanSource × Bool :=
  if !loggedIn then (sources, false)
  else
    let live := expire_idle_channels sources current_time
    match get_channel_source live chanId with
    | some _ => (touch_channel_source live chanId current_time, false)
    | none => (live ++ [⟨chanId, current_time⟩], true)

/-! ### Vanity roles and the `!addrole` command (`cerebot/discord.py`) -/

/-- Embeds `DiscordSource.get_vanity_roles`: `none` models the Python `return`
with no value (falsy `None`); in a public channel, find the first server
role named "Bot" that the bot's own member holds, and if found return the
roles below it that are not `@everyone` and carry default permissions. -/
def get_vanity_roles (isPrivate : Bool) (server : DServer) : Option (List Role) :=
  if isPrivate then none
  else
    match server.roles.find? (fun r => r.name == "Bot" && server.me_roles.contains r) with
    | none => none
    | some bot_role =>
        some (server.roles.filter (fun r =>
          decide (r.position < bot_role.position) && !r.is_everyone
            && r.permissions == server.default_role_permissions))

/-- Embeds Python `s.lower()`: lower-case every character (stated over the
character list, which is what Python's per-character `str.lower` does). -/
def str_lower (s : String) : String := ⟨s.data.map Char.toLower⟩

/-- The `for r in roles` loop of `bot_addrole_command`: skip roles whose
name does not match case-insensitively; at the first match, complain if
the caller already holds the role, otherwise add it (`.ok (r, reply)`
models `add_roles(user, r)` followed by the success reply); after the
loop, complain about an unknown role. -/
def bot_addrole_loop (user : DUser) (rolename : String) :
    List Role → Except String (Role × String)
  | [] => .error ("Unknown role: " ++ rolename)
  | r :: rest =>
      if !(str_lower rolename == str_lower r.name) then bot_addrole_loop user rolename rest
      else if user.roles.contains r then
        .error ("Member " ++ user.name ++ " already has role " ++ rolename)
      else
        .ok (r, "Member " ++ user.name ++ " has been given role " ++ rolename)

/-- Embeds `bot_addrole_command`: `.error msg` models a raised
`BotCommandException` (relayed to chat by the dispatcher); `.ok (r, reply)`
means `add_roles` was called with role `r` and the success reply was sent.
`add_roles` is called iff the result is `.ok`. -/
def bot_addrole_command (vanityRoles : Option (List Role)) (user : DUser)
    (rolename : String) : Except String (Role × String) :=
  match vanityRoles with
  | none => .error "No available roles found."
  | some [] => .error "No available roles found."
  | some roles => bot_addrole_loop user rolename roles

/-! ### `DiscordManager.disconnect` (`cerebot/discord.py`) -/

/-- The effects of one `disconnect` run that the claim observes. -/
structure DisconnectRun where
  ping_cancelled : Bool
  shutdown : Bool
  logged_error : Option String
deriving DecidableEq, Repr

/-- Embeds `DiscordManager.disconnect`: the result type `Except String DisconnectRun`
threads exceptions — a `.error` result would model the coroutine raising.
`ping_task_exists`/`ping_task_done` model `self.ping_task` and
`self.ping_task.done()`; `fake_connect` is `self.conf.get("fake_connect")`;
`is_closed` is `self.is_closed`; `close_result` is the behaviour of the
underlying `self.close()` call (`.error e` = it raises `e`); `shutdownArg`
is the `shutdown` keyword argument.  The `try`/`except Exception` around
`close` becomes a `match` on `close_result` whose error branch logs
(`log_exception("Error when disconnecting")`) instead of re-raising. -/
def DiscordManager_disconnect (ping_task_exists ping_task_done : Bool)
    (fake_connect is_closed : Bool) (close_result : Except String Unit)
    (shutdownArg : Bool) : Except String DisconnectRun :=
  let cancelled := ping_task_exists && !ping_task_done
  if fake_connect || is_closed then
    .ok { ping_cancelled := cancelled, shutdown := false, logged_error := none }
  else
    match close_result with
    | .ok () =>
        .ok { ping_cancelled := cancelled, shutdown := shutdownArg, logged_error := none }
    | .error e =>
        .ok { ping_cancelled := cancelled, shutdown := shutdownArg,
              logged_error := some ("Error when disconnecting: " ++ e) }

/-! ### `CerebotConfig` (`cerebot/config.py`)

The TOML data's `discord` table is modelled by the list of field names it
defines (`none` = no `discord` table at all).  `self.error(msg)` of
`beem.config.BotConfig` aborts startup with a configuration error and is
modelled by `.error msg`. -/

/-- Python truthiness of the `discord` table: `self.get("discord")` is
falsy when the key is missing or the table is empty. -/
def toml_table_falsy : Option (List String) → Bool
  | none => true
  | some fields => fields.isEmpty

/-- Modelled from the spec: `beem.config.BotConfig.require_table_fields`
(not part of this repository) aborts startup with a configuration error
when the named table lacks one of the required fields. -/
def require_table_fields (tableName : String) (fields : List String)
    (required : List String) : Except String Unit :=
  match required.find? (fun f => !(fields.contains f)) with
  | some f => .error ("Table " ++ tableName ++ " is missing field " ++ f)
  | none => .ok ()

/-- Embeds `CerebotConfig.check_discord`. -/
def check_discord (discordTable : Option (List String)) : Except String Unit :=
  if toml_table_falsy discordTable then
    .error "The discord table is undefined"
  else
    require_table_fields "discord" (discordTable.getD []) ["token"]

/-- Embeds `CerebotConfig.load`: `super().load()` (reading the TOML data — the
data itself is the `discordTable` argument) and `self.check_dcss()` are
`beem` code outside this repository and are abstracted into the given
`dcss_check` outcome; then `check_discord` runs. -/
def CerebotConfig_load (dcss_check : Except String Unit)
    (discordTable : Option (List String)) : Except String Unit := do
  dcss_check
  check_discord discordTable

/-! ### `center_string_in_line` (`cerebot/discord.py`)

Strings are modelled as `List Char`; `int(x / 2)` on an integer `x` is
truncating division (`Int.tdiv`), because Python's `int()` truncates the
float quotient toward zero. -/

/-- Python slice `s[a:b]` with step 1: negative endpoints count from the
end, endpoints are clamped to `[0, len(s)]`.  `s[a:]` is `pySlice s a
s.length` (a non-negative upper endpoint equal to the length is left
unchanged by normalisation and clamping). -/
def pySlice (s : List Char) (a b : Int) : List Char :=
  let n : Int := s.length
  let norm : Int → Int := fun i => if i < 0 then n + i else i
  let clamp : Int → Nat := fun i => (max 0 (min i n)).toNat
  (s.take (clamp (norm b))).drop (clamp (norm a))

/-- Embeds `center_string_in_line(string, line)`. -/
def center_string_in_line (string line : List Char) : List Char :=
  let ls : Int := string.length
  let ll : Int := line.length
  let leftn0 : Int := Int.tdiv (ll - ls) 2
  let leftn : Int := if string.length % 2 == 0 then leftn0 + 1 else leftn0
  let rightn : Int := Int.tdiv (ls - ll) 2
  if ll ≤ ls then pySlice string rightn leftn
  else pySlice line 0 leftn ++ string ++ pySlice line rightn ll

/-! ### Animation commands (`cerebot/discord.py`)

An animation command sends one initial message and then awaits a sequence
of `edit_message` calls in order, sleeping between them; an edit that
raises propagates out of the coroutine, so no later edit of the sequence
is attempted.  `run_animation` is that trace semantics: `ok k` tells
whether the `k`-th edit call succeeds, and the resulting list is the
sequence of gateway calls actually issued (sleeps carry no gateway call
and are not recorded). -/

inductive ChatAction where
  | send (text : String)
  | edit (text : String)
deriving DecidableEq, Repr

def ChatAction.isSend : ChatAction → Bool
  | .send _ => true
  | .edit _ => false

def ChatAction.isEdit : ChatAction → Bool
  | .send _ => false
  | .edit _ => true

def ChatAction.editText : ChatAction → Option String
  | .send _ => none
  | .edit t => some t

/-- The texts of the edit calls of a trace, in order. -/
def editTexts (tr : List ChatAction) : List String :=
  tr.filterMap ChatAction.editText

/-- Issue the edits in order starting from edit index `k`; a failing edit
call is issued (and raises) but stops the sequence. -/
def run_edits (ok : Nat → Bool) : List String → Nat → List ChatAction
  | [], _ => []
  | f :: rest, k =>
      if ok k then ChatAction.edit f :: run_edits ok rest (k + 1)
      else [ChatAction.edit f]

/-- One initial send followed by the edit sequence. -/
def run_animation (init : String) (frames : List String) (ok : Nat → Bool) :
    List ChatAction :=
  ChatAction.send init :: run_edits ok frames 0

/-- Embeds the format call that joins the lines with newlines and wraps
them in a triple-backtick code block. -/
def code_block (lines : List String) : String :=
  "```" ++ String.intercalate "\n" lines ++ "```"

/-- Embeds `bot_glasses_command`: initial message `( •_•)`. -/
def bot_glasses_init : String := "( •_•)"

/-- Embeds `bot_glasses_command`: the two edits, in source order. -/
def bot_glasses_frames : List String := ["( •_•)>⌐■-■", "(⌐■_■)"]

/-- The gateway-call trace of `bot_glasses_command`. -/
def bot_glasses_run (ok : Nat → Bool) : List ChatAction :=
  run_animation bot_glasses_init bot_glasses_frames ok

def deal_glasses : String := "    ⌐■-■    "

def deal_glasson : String := "   (⌐■_■)   "

def deal_dealwith : String := "deal with it"

def deal_lines : List String :=
  ["            ", "            ", "            ", "    (•_•)   "]

/-- Embeds `bot_deal_command`: the initial message. -/
def bot_deal_init : String := code_block deal_lines

/-- Embeds `bot_deal_command`: the edits, in source order — `for i in range(3)`
edits `lines[:i] + [glasses] + lines[i + 1:]`, then the final edit is
`lines[:1] + [dealwith] + lines[2:3] + [glasson]`. -/
def bot_deal_frames : List String :=
  ((List.range 3).map (fun i =>
      code_block (deal_lines.take i ++ [deal_glasses] ++ deal_lines.drop (i + 1))))
    ++ [code_block (deal_lines.take 1 ++ [deal_dealwith]
          ++ (deal_lines.drop 2).take 1 ++ [deal_glasson])]

/-- The gateway-call trace of `bot_deal_command`. -/
def bot_deal_run (ok : Nat → Bool) : List ChatAction :=
  run_animation bot_deal_init bot_deal_frames ok

/-! ### Mention filtering (`DiscordSource.filter_mentions`)

The Python method splits the message on the regular expression
`(<@&?[0-9]+>)` — `re.split` with a capturing group, so the matched
mentions appear at the odd indices of the parts list — escapes every `@`
of the matched parts as `\@`, and concatenates everything back.

The regular-expression machinery is embedded directly: `matchMention`
decides whether the mention pattern matches at the head of a character
list (the pattern is deterministic: after `<@`, a leading `&` must be
consumed whenever present, because backtracking to the no-`&` alternative
would require `&` to match `[0-9]`), `findMention` finds the leftmost
match the way `re.split` scans, and `filter_mentions` rebuilds the output
the way the Python loop does: unmatched parts unchanged, matched parts
`@`-escaped. -/

/-- Parse `[0-9]+>` at the head of the list: the (nonempty, maximal) run of
digits followed by `>`.  Returns the consumed characters and the rest. -/
def mentionRemainder (rest2 : List Char) : Option (List Char × List Char) :=
  if (rest2.takeWhile Char.isDigit).isEmpty then none
  else
    match rest2.dropWhile Char.isDigit with
    | c :: rest4 =>
        if c = '>' then some (rest2.takeWhile Char.isDigit ++ ['>'], rest4)
        else none
    | [] => none

/-- The part of the mention pattern after `<@`: an optional `&`, then
`[0-9]+>`. -/
def matchMentionBody (rest : List Char) : Option (List Char × List Char) :=
  match rest with
  | c3 :: rest2 =>
      if c3 = '&' then
        match mentionRemainder rest2 with
        | some (body, rest4) => some ('<' :: '@' :: '&' :: body, rest4)
        | none => none
      else
        match mentionRemainder (c3 :: rest2) with
        | some (body, rest4) => some ('<' :: '@' :: body, rest4)
        | none => none
  | [] => none

/-- Match the pattern `<@&?[0-9]+>` at the head of `cs`, returning the
matched characters and the rest. -/
def matchMention (cs : List Char) : Option (List Char × List Char) :=
  match cs with
  | c1 :: c2 :: rest => if c1 = '<' ∧ c2 = '@' then matchMentionBody rest else none
  | _ => none

/-- Embeds `p.replace("@", "\\@")` on a matched part. -/
def escapeAt : List Char → List Char
  | [] => []
  | c :: cs => (if c = '@' then ['\\', '@'] else [c]) ++ escapeAt cs

/-- Leftmost match, the way `re.split` scans: the parts before the match,
the match, and the rest. -/
def findMention : List Char → Option (List Char × List Char × List Char)
  | [] => none
  | c :: cs =>
      match matchMention (c :: cs) with
      | some (m, rest) => some ([], m, rest)
      | none =>
          match findMention cs with
          | some (p, m, r) => some (c :: p, m, r)
          | none => none

theorem mentionRemainder_some {rest2 body rest4 : List Char}
    (h : mentionRemainder rest2 = some (body, rest4)) :
    ∃ ds, ds ≠ [] ∧ ds.all Char.isDigit = true ∧ body = ds ++ ['>']
      ∧ rest2 = ds ++ '>' :: rest4 := by
  unfold mentionRemainder at h
  by_cases he : (rest2.takeWhile Char.isDigit).isEmpty = true
  · rw [if_pos he] at h
    exact absurd h (by simp)
  · rw [if_neg he] at h
    cases hdx : rest2.dropWhile Char.isDigit with
    | nil => rw [hdx] at h; exact absurd h (by simp)
    | cons c rest4' =>
        rw [hdx] at h
        simp only at h
        by_cases hc : c = '>'
        · rw [if_pos hc] at h
          injection h with h1
          injection h1 with hbody hrest
          subst hrest
          subst hc
          refine ⟨rest2.takeWhile Char.isDigit, ?_, ?_, hbody.symm, ?_⟩
          · intro hnil
            rw [hnil] at he
            exact he rfl
          · exact List.all_eq_true.2 (fun c hc => List.mem_takeWhile_imp hc)
          · conv_lhs => rw [(List.takeWhile_append_dropWhile Char.isDigit rest2).symm]
            rw [hdx]
        · rw [if_neg hc] at h
          exact absurd h (by simp)

theorem matchMention_some {cs m rest : List Char}
    (h : matchMention cs = some (m, rest)) :
    ∃ amp ds, (amp = [] ∨ amp = ['&']) ∧ ds ≠ [] ∧ ds.all Char.isDigit = true
      ∧ m = '<' :: '@' :: (amp ++ ds ++ ['>']) ∧ cs = m ++ rest := by
  rcases cs with _ | ⟨c1, _ | ⟨c2, rest0⟩⟩
  · exact absurd h (by simp [matchMention])
  · exact absurd h (by simp [matchMention])
  · unfold matchMention at h
    simp only at h
    by_cases h12 : c1 = '<' ∧ c2 = '@'
    · obtain ⟨h1, h2⟩ := h12
      subst h1; subst h2
      rw [if_pos ⟨rfl, rfl⟩] at h
      rcases rest0 with _ | ⟨c3, rest2⟩
      · exact absurd h (by simp [matchMentionBody])
      · unfold matchMentionBody at h
        simp only at h
        by_cases hc3 : c3 = '&'
        · subst hc3
          rw [if_pos rfl] at h
          cases hmr : mentionRemainder rest2 with
          | none => rw [hmr] at h; exact absurd h (by simp)
          | some pr =>
              rcases pr with ⟨body, rest4⟩
              rw [hmr] at h
              injection h with h1
              injection h1 with hm hrest
              subst hrest
              obtain ⟨ds, hne, hdig, hbody, hsplit⟩ := mentionRemainder_some hmr
              exact ⟨['&'], ds, Or.inr rfl, hne, hdig,
                by rw [← hm, hbody]; rfl,
                by rw [← hm, hbody, hsplit]; simp⟩
        · rw [if_neg hc3] at h
          cases hmr : mentionRemainder (c3 :: rest2) with
          | none => rw [hmr] at h; exact absurd h (by simp)
          | some pr =>
              rcases pr with ⟨body, rest4⟩
              rw [hmr] at h
              injection h with h1
              injection h1 with hm hrest
              subst hrest
              obtain ⟨ds, hne, hdig, hbody, hsplit⟩ := mentionRemainder_some hmr
              exact ⟨[], ds, Or.inl rfl, hne, hdig,
                by rw [← hm, hbody]; rfl,
                by rw [← hm, hbody, hsplit]; simp⟩
    · rw [if_neg h12] at h
      exact absurd h (by simp)

theorem findMention_some {cs p m r : List Char}
    (h : findMention cs = some (p, m, r)) :
    cs = p ++ m ++ r ∧ matchMention (m ++ r) = some (m, r)
      ∧ ∀ x, x <:+ p → x ≠ [] → matchMention (x ++ (m ++ r)) = none := by
  induction cs generalizing p m r with
  | nil => exact absurd h (by simp [findMention])
  | cons c cs ih =>
      unfold findMention at h
      split at h
      case _ m0 rest0 heq =>
        cases h
        obtain ⟨_, _, _, _, _, hm, happ⟩ := matchMention_some heq
        refine ⟨by simpa using happ, by rw [← happ]; exact heq, ?_⟩
        intro x hx hxne
        simp only [List.suffix_nil] at hx
        exact absurd hx hxne
      case _ hnone =>
        split at h
        case _ p' m' r' heq2 =>
          cases h
          obtain ⟨happ, hmatch, hmin⟩ := ih heq2
          refine ⟨by simp [happ], hmatch, ?_⟩
          intro x hx hxne
          rcases List.suffix_cons_iff.1 hx with hx | hx
          · subst hx
            have : c :: p' ++ (m ++ r) = c :: cs := by simp [happ]
            rw [this]
            exact hnone
          · exact hmin x hx hxne
        case _ => exact absurd h (by simp)

theorem findMention_some_length {cs p m r : List Char}
    (h : findMention cs = some (p, m, r)) : r.length < cs.length := by
  obtain ⟨happ, hmatch, -⟩ := findMention_some h
  obtain ⟨amp, ds, -, -, -, hm, -⟩ := matchMention_some hmatch
  have : m ≠ [] := by rw [hm]; simp
  rw [happ]
  simp only [List.length_append]
  have : 0 < m.length := List.length_pos.2 this
  omega

/-- Embeds `DiscordSource.filter_mentions`: rebuild the message with every
matched mention `@`-escaped and everything else unchanged. -/
def filter_mentions (cs : List Char) : List Char :=
  match h : findMention cs with
  | none => cs
  | some (p, m, r) => p ++ escapeAt m ++ filter_mentions r
termination_by cs.length
decreasing_by exact findMention_some_length h

/-- Exact match of the mention pattern `<@&?[0-9]+>`. -/
def isMention (m : List Char) : Bool :=
  decide (matchMention m = some (m, []))

/-- Whether some substring of `s` is a well-formed mention (the scan finds
a match). -/
def containsMention (s : List Char) : Bool :=
  (findMention s).isSome

/-- A character list whose head (if any) can continue no partial mention
match: it is not `@`, `&`, `>` or a digit.  Both a mention (which starts
with `<`) and its escaped form satisfy this. -/
def headBlocked (l : List Char) : Prop :=
  ∀ c, l.head? = some c → c ≠ '@' ∧ c ≠ '&' ∧ c ≠ '>' ∧ Char.isDigit c = false

/-! ## Theorems -/

/-- C1 (counterexample): the claim "for every caller on the ignored-users
list, `is_allowed_user` returns `False`" fails when the ignored caller is
also a configured admin: with `admins = ignored_users = ["1"]` and a
server on which id "1" resolves to user `alice`, `alice` is ignored yet
`is_allowed_user` returns `True`, because the admin check comes first. -/
theorem is_allowed_user_ignored_claim_counterexample :
    user_is_ignored ⟨["1"], ["1"]⟩
        [⟨[("1", ⟨"alice", false, []⟩)], [], [], 0⟩] ⟨"alice", false, []⟩ = true
    ∧ is_allowed_user ⟨["1"], ["1"]⟩
        [⟨[("1", ⟨"alice", false, []⟩)], [], [], 0⟩] ⟨"alice", false, []⟩ = true := by
  decide

/-- C1 (amended): every caller on the ignored-users list who is not an
admin has `is_allowed_user = false`, regardless of which command is
requested (the dispatcher therefore never invokes any handler and sends
no reply for such a caller). -/
theorem is_allowed_user_of_ignored_not_admin
    (conf : BotConf) (servers : List DServer) (user : DUser)
    (hig : user_is_ignored conf servers user = true)
    (hadm : user_is_admin conf servers user = false) :
    is_allowed_user conf servers user = false := by
  unfold is_allowed_user
  rw [hadm]
  by_cases hb : user.bot
  · simp [hb]
  · simp [hb, hig]

/-- C1 (witness): a concrete ignored non-admin caller is rejected. -/
theorem is_allowed_user_of_ignored_not_admin_witness :
    is_allowed_user ⟨[], ["2"]⟩
        [⟨[("2", ⟨"bob", false, []⟩)], [], [], 0⟩] ⟨"bob", false, []⟩ = false :=
  is_allowed_user_of_ignored_not_admin _ _ _ (by decide) (by decide)

/-- C9: a bot account that is not a configured admin is rejected by
`is_allowed_user`, whether or not it is on the ignored-users list. -/
theorem is_allowed_user_bot_not_admin
    (conf : BotConf) (servers : List DServer) (user : DUser)
    (hb : user.bot = true)
    (hadm : user_is_admin conf servers user = false) :
    is_allowed_user conf servers user = false := by
  unfold is_allowed_user
  rw [hadm, hb]
  simp

/-- C9 (witness): a concrete non-admin bot account, not ignored, is
rejected. -/
theorem is_allowed_user_bot_not_admin_witness :
    is_allowed_user ⟨[], []⟩ [] ⟨"a_bot", true, []⟩ = false :=
  is_allowed_user_bot_not_admin _ _ _ (by decide) (by decide)

/-- C2: for every command of the `bot_commands` table, in a private
channel (`isPrivate = true`): an admin caller passes
`check_bot_command_restrictions` outright (so the
`require_public_channel` restriction never denies an admin), while a
non-admin caller invoking a `require_public_channel` command is denied
with "This command must be run in a public channel." (no
`require_public_channel` entry of the table also sets `require_admin`,
so the superclass admin check cannot fire first). -/
theorem check_bot_command_restrictions_spec
    (conf : BotConf) (servers : List DServer) (user : DUser)
    (name : String) (entry : CmdEntry)
    (hmem : (name, entry) ∈ bot_commands) :
    (user_is_admin conf servers user = true →
      check_bot_command_restrictions conf servers true user entry = .ok ())
    ∧ (user_is_admin conf servers user = false →
        entry.require_public_channel = true →
        check_bot_command_restrictions conf servers true user entry
          = .error "This command must be run in a public channel.") := by
  constructor
  · intro hadm
    simp [check_bot_command_restrictions, chatwatcher_check_restrictions, hadm]
  · intro hadm hpub
    have hall : bot_commands.all
        (fun p => !(p.2.require_public_channel && p.2.require_admin)) = true := by
      decide
    have hra : entry.require_admin = false := by
      have := List.all_eq_true.1 hall _ hmem
      simp only [Bool.not_eq_true', Bool.and_eq_false_iff] at this
      rcases this with h | h
      · rw [hpub] at h; cases h
      · exact h
    simp only [check_bot_command_restrictions, chatwatcher_check_restrictions,
      hadm, hra, hpub]
    rfl

/-- C2 (witness): for the `glasses` entry, a concrete admin in a private
channel is allowed and a concrete non-admin in a private channel gets the
public-channel denial. -/
theorem check_bot_command_restrictions_spec_witness :
    check_bot_command_restrictions ⟨["1"], []⟩
        [⟨[("1", ⟨"alice", false, []⟩)], [], [], 0⟩] true ⟨"alice", false, []⟩
        { require_public_channel := true, unlogged := true,
          source_restriction := some "channel" } = .ok ()
    ∧ check_bot_command_restrictions ⟨["1"], []⟩
        [⟨[("1", ⟨"alice", false, []⟩)], [], [], 0⟩] true ⟨"bob", false, []⟩
        { require_public_channel := true, unlogged := true,
          source_restriction := some "channel" }
        = .error "This command must be run in a public channel." :=
  ⟨(check_bot_command_restrictions_spec _ _ _ "glasses" _
      (by decide)).1 (by decide),
   (check_bot_command_restrictions_spec _ _ _ "glasses" _
      (by decide)).2 (by decide) (by decide)⟩

theorem mem_touch_channel_source {l : List ChanSource} {cid : Nat} {t : Int}
    {s : ChanSource} (h : s ∈ touch_channel_source l cid t) :
    s.time_last_message = t ∨ s ∈ l := by
  induction l with
  | nil => simp [touch_channel_source] at h
  | cons c cs ih =>
      unfold touch_channel_source at h
      split at h
      · rcases List.mem_cons.1 h with h | h
        · subst h; exact Or.inl rfl
        · exact Or.inr (List.mem_cons_of_mem _ h)
      · rcases List.mem_cons.1 h with h | h
        · subst h; exact Or.inr (List.mem_cons_self _ _)
        · rcases ih h with h | h
          · exact Or.inl h
          · exact Or.inr (List.mem_cons_of_mem _ h)

theorem mem_expire_idle_channels {sources : List ChanSource} {t : Int}
    {s : ChanSource} (h : s ∈ expire_idle_channels sources t) :
    s ∈ sources ∧ t - s.time_last_message < channel_idle_timeout := by
  have := List.mem_filter.1 h
  refine ⟨this.1, ?_⟩
  have := this.2
  simp only [Bool.not_eq_true', decide_eq_false_iff_not, not_le] at this
  exact this

/-- C3: on a logged-in `on_message` at time `t`: (a) every source left in
the cache after the cache update has last-activity within the idle
timeout of `t`, and (b) if every cached source of the message's channel
is idle-expired at `t`, the expiry sweep removes it before the lookup and
a fresh `DiscordSource` is constructed for the channel. -/
theorem on_message_cache_spec (sources : List ChanSource) (chanId : Nat) (t : Int) :
    (∀ s ∈ (on_message true sources chanId t).1,
        t - s.time_last_message < channel_idle_timeout)
    ∧ ((∀ s ∈ sources, s.chanId = chanId →
          channel_idle_timeout ≤ t - s.time_last_message) →
        (on_message true sources chanId t).2 = true) := by
  constructor
  · intro s hs
    unfold on_message at hs
    simp only [Bool.not_true, Bool.false_eq_true, if_false] at hs
    rcases hfind : get_channel_source (expire_idle_channels sources t) chanId with
      _ | found
    · rw [hfind] at hs
      simp only at hs
      rcases List.mem_append.1 hs with hs | hs
      · exact (mem_expire_idle_channels hs).2
      · simp only [List.mem_singleton] at hs
        subst hs
        simp [channel_idle_timeout]
    · rw [hfind] at hs
      simp only at hs
      rcases mem_touch_channel_source hs with h | h
      · rw [h]; simp [channel_idle_timeout]
      · exact (mem_expire_idle_channels h).2
  · intro hexp
    have hnone : get_channel_source (expire_idle_channels sources t) chanId = none := by
      apply List.find?_eq_none.2
      intro s hs
      have ⟨hmem, hlive⟩ := mem_expire_idle_channels hs
      simp only [beq_iff_eq]
      intro heq
      exact absurd (hexp s hmem heq) (not_le.2 hlive)
    unfold on_message
    simp only [Bool.not_true, Bool.false_eq_true, if_false]
    rw [hnone]

/-- C3 (witness): a channel whose only cached source is exactly
timeout-expired gets a fresh source. -/
theorem on_message_cache_spec_witness :
    (on_message true [⟨1, 0⟩] 1 1800).2 = true :=
  (on_message_cache_spec [⟨1, 0⟩] 1 1800).2 (by decide)

theorem bot_addrole_loop_already {user : DUser} {rolename : String} :
    ∀ {roles : List Role} {r : Role},
      roles.find? (fun x => str_lower rolename == str_lower x.name) = some r →
      user.roles.contains r = true →
      bot_addrole_loop user rolename roles
        = .error ("Member " ++ user.name ++ " already has role " ++ rolename) := by
  intro roles
  induction roles with
  | nil => intro r hf _; simp [List.find?] at hf
  | cons a rest ih =>
      intro r hf hh
      rw [List.find?_cons] at hf
      by_cases hp : (str_lower rolename == str_lower a.name) = true
      · rw [hp] at hf
        simp only at hf
        injection hf with hf
        subst hf
        simp only [bot_addrole_loop, hp, hh, Bool.not_true, Bool.false_eq_true,
          if_false, if_true]
      · have hp' : (str_lower rolename == str_lower a.name) = false :=
          Bool.not_eq_true _ ▸ Bool.of_not_eq_true hp
        rw [hp'] at hf
        simp only at hf
        simp only [bot_addrole_loop, hp', Bool.not_false, if_true]
        exact ih hf hh

/-- C5: when the caller already holds the (first, case-insensitively)
matching available vanity role, `!addrole` fails with
"Member <name> already has role <ROLE>" and performs no role mutation
(the result is `.error`, and `add_roles` is called only on `.ok`). -/
theorem bot_addrole_already_has
    (isPrivate : Bool) (server : DServer) (user : DUser) (rolename : String)
    (roles : List Role) (r : Role)
    (hv : get_vanity_roles isPrivate server = some roles)
    (hf : roles.find? (fun x => str_lower rolename == str_lower x.name) = some r)
    (hh : user.roles.contains r = true) :
    bot_addrole_command (get_vanity_roles isPrivate server) user rolename
      = .error ("Member " ++ user.name ++ " already has role " ++ rolename) := by
  rw [hv]
  cases roles with
  | nil => simp [List.find?] at hf
  | cons a rest => exact bot_addrole_loop_already hf hh

/-- C5 (witness): a concrete caller who already holds vanity role "Cool"
and requests "cool" gets the already-has error. -/
theorem bot_addrole_already_has_witness :
    bot_addrole_command
        (get_vanity_roles false
          ⟨[], [⟨1, "Cool", 0, false, 0⟩, ⟨2, "Bot", 5, false, 7⟩],
            [⟨2, "Bot", 5, false, 7⟩], 0⟩)
        ⟨"u", false, [⟨1, "Cool", 0, false, 0⟩]⟩ "cool"
      = .error ("Member " ++ "u" ++ " already has role " ++ "cool") :=
  bot_addrole_already_has false _ _ "cool" [⟨1, "Cool", 0, false, 0⟩]
    ⟨1, "Cool", 0, false, 0⟩ (by decide) (by decide) (by decide)

/-- C6: `DiscordManager.disconnect` never raises: for every state and
every behaviour of the underlying `close()` call — including `close`
raising an arbitrary exception — the coroutine completes normally, and
when `close` raises (and is reached), the error is logged. -/
theorem disconnect_never_raises (pte ptd fc ic : Bool)
    (cr : Except String Unit) (sa : Bool) :
    (∃ run, DiscordManager_disconnect pte ptd fc ic cr sa = .ok run)
    ∧ (∀ e, cr = .error e → fc = false → ic = false →
        DiscordManager_disconnect pte ptd fc ic cr sa
          = .ok ⟨pte && !ptd, sa, some ("Error when disconnecting: " ++ e)⟩) := by
  constructor
  · unfold DiscordManager_disconnect
    by_cases hfi : (fc || ic) = true
    · rw [if_pos hfi]
      exact ⟨_, rfl⟩
    · rw [if_neg hfi]
      cases cr with
      | ok u => exact ⟨_, rfl⟩
      | error e => exact ⟨_, rfl⟩
  · intro e hcr hfc hic
    subst hcr; subst hfc; subst hic
    rfl

/-- C6 (witness): a concrete disconnect with a raising `close` completes
normally with the error logged. -/
theorem disconnect_never_raises_witness :
    DiscordManager_disconnect true false false false (.error "boom") true
      = .ok ⟨true, true, some ("Error when disconnecting: " ++ "boom")⟩ :=
  (disconnect_never_raises true false false false (.error "boom") true).2
    "boom" rfl rfl rfl

/-- C7: `CerebotConfig.load` signals a configuration error whenever the
TOML data lacks a `discord` table or that table lacks a `token` field
(whatever the abstracted `beem` checks do); and when both are present,
`check_discord` raises no error. -/
theorem cerebot_config_load_spec (dcss : Except String Unit)
    (tbl : Option (List String)) :
    ((∀ fields, tbl = some fields → "token" ∉ fields) →
      ∃ e, CerebotConfig_load dcss tbl = .error e)
    ∧ (∀ fields, tbl = some fields → "token" ∈ fields →
        check_discord tbl = .ok ()) := by
  constructor
  · intro hno
    cases dcss with
    | error e => exact ⟨e, rfl⟩
    | ok u =>
        cases tbl with
        | none => exact ⟨_, rfl⟩
        | some fields =>
            have hna : "token" ∉ fields := hno fields rfl
            have hc : fields.contains "token" = false := by
              cases hcc : fields.contains "token"
              · rfl
              · exact absurd (List.mem_of_elem_eq_true hcc) hna
            cases hfe : fields.isEmpty with
            | true =>
                refine ⟨"The discord table is undefined", ?_⟩
                simp [CerebotConfig_load, check_discord, toml_table_falsy, hfe]
                rfl
            | false =>
                refine ⟨"Table discord is missing field token", ?_⟩
                simp only [CerebotConfig_load, check_discord, toml_table_falsy, hfe]
                simp only [require_table_fields, List.find?_cons, hc,
                  Bool.not_false, Option.getD]
                rfl
  · intro fields htbl htok
    subst htbl
    have hfe : fields.isEmpty = false := by
      cases fields with
      | nil => simp at htok
      | cons a rest => rfl
    have hc : fields.contains "token" = true :=
      List.elem_eq_true_of_mem htok
    simp only [check_discord, toml_table_falsy, hfe]
    simp only [require_table_fields, List.find?_cons, hc, Bool.not_true,
      Option.getD]
    rfl

/-- C7 (witness): a missing `discord` table aborts the load; a table with
a `token` field passes `check_discord`. -/
theorem cerebot_config_load_spec_witness :
    (∃ e, CerebotConfig_load (.ok ()) none = .error e)
    ∧ check_discord (some ["token"]) = .ok () :=
  ⟨(cerebot_config_load_spec (.ok ()) none).1
      (fun _ h => Option.noConfusion h),
   (cerebot_config_load_spec (.ok ()) (some ["token"])).2 ["token"] rfl
      (by decide)⟩

/-- C10 (counterexample): the claim "for `len(string) < len(line)` the
result has length `len(line)` (and contains `string`)" fails at
`string = "a"`, `line = ".."`: Python's `int((1 - 2) / 2)` is `0`, so
`line[rightn:]` is the whole line and the result is `"a.."` of length 3. -/
theorem center_string_in_line_claim_counterexample :
    (['a'] : List Char).length < (['.', '.'] : List Char).length
    ∧ ¬ ((center_string_in_line ['a'] ['.', '.']).length
            = (['.', '.'] : List Char).length
          ∧ ∃ pre post, center_string_in_line ['a'] ['.', '.']
              = pre ++ ['a'] ++ post) :=
  ⟨by decide, fun hcl => absurd hcl.1 (by decide)⟩

/-- C10 (amended): for `len(string) < len(line)` the result always
contains `string` as a contiguous substring; its length equals
`len(line)` provided `len(line)` is odd and exceeds `len(string)` by at
least 2 (otherwise the parity of the two `int(x/2)` truncations — or, for
`len(line) = len(string) + 1`, the degenerate slice `line[0:]` — makes
the length come out wrong). -/
theorem center_string_in_line_spec (string line : List Char)
    (h : string.length < line.length) :
    (∃ pre post, center_string_in_line string line = pre ++ string ++ post)
    ∧ (line.length % 2 = 1 → string.length + 2 ≤ line.length →
        (center_string_in_line string line).length = line.length) := by
  have hcond : ¬ ((line.length : Int) ≤ (string.length : Int)) := by
    exact_mod_cast not_le.2 h
  have hd0 : (0 : Int) ≤ (line.length : Int) - (string.length : Int) := by
    omega
  have htd : Int.tdiv ((line.length : Int) - (string.length : Int)) 2
      = ((line.length : Int) - (string.length : Int)) / 2 :=
    Int.tdiv_eq_ediv hd0 (by omega)
  have hntd : Int.tdiv ((string.length : Int) - (line.length : Int)) 2
      = -(((line.length : Int) - (string.length : Int)) / 2) := by
    rw [show (string.length : Int) - (line.length : Int)
        = -((line.length : Int) - (string.length : Int)) by ring]
    rw [Int.neg_tdiv, htd]
  constructor
  · unfold center_string_in_line
    rw [if_neg hcond]
    exact ⟨_, _, rfl⟩
  · intro hodd hle
    unfold center_string_in_line
    rw [if_neg hcond]
    rcases Nat.mod_two_eq_zero_or_one string.length with hpar | hpar <;>
      simp [pySlice, hpar, htd, hntd] <;> omega

/-- C10 (witness): centering a 3-character string in a 15-character line
(the `!firestorm` usage) yields a contiguous copy inside a 15-character
result. -/
theorem center_string_in_line_spec_witness :
    (∃ pre post, center_string_in_line ['#', '#', '#']
        ['.', '.', '.', '.', '.', '.', '.', '.', '.', '.', '.', '.', '.', '.', '.']
      = pre ++ ['#', '#', '#'] ++ post)
    ∧ (center_string_in_line ['#', '#', '#']
        ['.', '.', '.', '.', '.', '.', '.', '.', '.', '.', '.', '.', '.', '.', '.']).length
      = 15 :=
  ⟨(center_string_in_line_spec _ _ (by decide)).1,
   (center_string_in_line_spec _ _ (by decide)).2 (by decide) (by decide)⟩

theorem run_edits_all_edit (ok : Nat → Bool) :
    ∀ (frames : List String) (k : Nat) (a : ChatAction),
      a ∈ run_edits ok frames k → a.isEdit = true := by
  intro frames
  induction frames with
  | nil => intro k a ha; simp [run_edits] at ha
  | cons f rest ih =>
      intro k a ha
      unfold run_edits at ha
      by_cases hk : ok k = true
      · rw [if_pos hk] at ha
        rcases List.mem_cons.1 ha with ha | ha
        · subst ha; rfl
        · exact ih (k + 1) a ha
      · rw [if_neg hk] at ha
        simp only [List.mem_singleton] at ha
        subst ha; rfl

theorem filter_isSend_run_edits (ok : Nat → Bool) (frames : List String) (k : Nat) :
    (run_edits ok frames k).filter ChatAction.isSend = [] := by
  rw [List.filter_eq_nil_iff]
  intro a ha
  have := run_edits_all_edit ok frames k a ha
  cases a with
  | send t => simp [ChatAction.isEdit] at this
  | edit t => simp [ChatAction.isSend]

theorem filter_isEdit_run_edits (ok : Nat → Bool) (frames : List String) (k : Nat) :
    (run_edits ok frames k).filter ChatAction.isEdit = run_edits ok frames k :=
  List.filter_eq_self.2 (run_edits_all_edit ok frames k)

theorem editTexts_run_edits_isPrefixOf (ok : Nat → Bool) :
    ∀ (frames : List String) (k : Nat),
      editTexts (run_edits ok frames k) <+: frames := by
  intro frames
  induction frames with
  | nil => intro k; simp [run_edits, editTexts]
  | cons f rest ih =>
      intro k
      unfold run_edits
      by_cases hk : ok k = true
      · rw [if_pos hk]
        simp only [editTexts, List.filterMap_cons, ChatAction.editText]
        exact List.cons_prefix_cons.2 ⟨rfl, ih (k + 1)⟩
      · rw [if_neg hk]
        simp only [editTexts, List.filterMap_cons, ChatAction.editText,
          List.filterMap_nil]
        exact ⟨rest, rfl⟩

theorem run_edits_length_le (ok : Nat → Bool) :
    ∀ (frames : List String) (k j : Nat), ok (k + j) = false →
      (run_edits ok frames k).length ≤ j + 1 := by
  intro frames
  induction frames with
  | nil => intro k j _; simp [run_edits]
  | cons f rest ih =>
      intro k j hj
      unfold run_edits
      by_cases hk : ok k = true
      · rw [if_pos hk]
        cases j with
        | zero => rw [Nat.add_zero] at hj; rw [hj] at hk; cases hk
        | succ j' =>
            have := ih (k + 1) j' (by rw [show k + 1 + j' = k + (j' + 1) by omega]; exact hj)
            simp only [List.length_cons]
            omega
      · rw [if_neg hk]
        simp

theorem editTexts_run_edits_complete (ok : Nat → Bool) :
    ∀ (frames : List String) (k : Nat),
      (∀ i, i < frames.length → ok (k + i) = true) →
      editTexts (run_edits ok frames k) = frames := by
  intro frames
  induction frames with
  | nil => intro k _; simp [run_edits, editTexts]
  | cons f rest ih =>
      intro k hall
      unfold run_edits
      rw [if_pos (by simpa using hall 0 (by simp))]
      simp only [editTexts, List.filterMap_cons, ChatAction.editText]
      rw [show List.filterMap ChatAction.editText (run_edits ok rest (k + 1))
          = editTexts (run_edits ok rest (k + 1)) from rfl]
      rw [ih (k + 1) (fun i hi => by
        rw [show k + 1 + i = k + (i + 1) by omega]
        exact hall (i + 1) (by simpa using Nat.succ_lt_succ hi))]

theorem run_animation_trace (init : String) (frames : List String) (ok : Nat → Bool) :
    (run_animation init frames ok).filter ChatAction.isSend = [ChatAction.send init]
    ∧ (run_animation init frames ok).head? = some (ChatAction.send init)
    ∧ editTexts (run_animation init frames ok) <+: frames
    ∧ (∀ j, ok j = false →
        ((run_animation init frames ok).filter ChatAction.isEdit).length ≤ j + 1)
    ∧ ((∀ i, i < frames.length → ok i = true) →
        editTexts (run_animation init frames ok) = frames) := by
  refine ⟨?_, rfl, ?_, ?_, ?_⟩
  · simp only [run_animation, List.filter_cons, ChatAction.isSend,
      filter_isSend_run_edits, if_true]
  · simp only [run_animation, editTexts, List.filterMap_cons, ChatAction.editText]
    exact editTexts_run_edits_isPrefixOf ok frames 0
  · intro j hj
    simp only [run_animation, List.filter_cons, ChatAction.isEdit,
      Bool.false_eq_true, if_false, filter_isEdit_run_edits]
    exact run_edits_length_le ok frames 0 j (by simpa using hj)
  · intro hall
    simp only [run_animation, editTexts, List.filterMap_cons, ChatAction.editText]
    exact editTexts_run_edits_complete ok frames 0 (fun i hi => by
      simpa using hall i hi)

/-- C4: for `!glasses` and `!deal`, under every pattern `ok` of edit
successes/failures: the trace contains exactly one send — the initial
message, which comes first —, the edit texts issued form a prefix of the
defined frame sequence (strictly in order, never reordered or retried),
an edit failure at index `j` means no edit beyond the `j`-th call is
attempted, and when no edit fails the full frame sequence is issued. -/
theorem animation_commands_trace_spec (ok : Nat → Bool) :
    ((bot_glasses_run ok).filter ChatAction.isSend
        = [ChatAction.send bot_glasses_init]
      ∧ (bot_glasses_run ok).head? = some (ChatAction.send bot_glasses_init)
      ∧ editTexts (bot_glasses_run ok) <+: bot_glasses_frames
      ∧ (∀ j, ok j = false →
          ((bot_glasses_run ok).filter ChatAction.isEdit).length ≤ j + 1)
      ∧ ((∀ i, i < bot_glasses_frames.length → ok i = true) →
          editTexts (bot_glasses_run ok) = bot_glasses_frames))
    ∧ ((bot_deal_run ok).filter ChatAction.isSend
        = [ChatAction.send bot_deal_init]
      ∧ (bot_deal_run ok).head? = some (ChatAction.send bot_deal_init)
      ∧ editTexts (bot_deal_run ok) <+: bot_deal_frames
      ∧ (∀ j, ok j = false →
          ((bot_deal_run ok).filter ChatAction.isEdit).length ≤ j + 1)
      ∧ ((∀ i, i < bot_deal_frames.length → ok i = true) →
          editTexts (bot_deal_run ok) = bot_deal_frames)) :=
  ⟨run_animation_trace bot_glasses_init bot_glasses_frames ok,
   run_animation_trace bot_deal_init bot_deal_frames ok⟩

/-- C4 (witness): with every edit failing, `!glasses` attempts at most one
edit; with every edit succeeding, `!deal` issues exactly its frame
sequence. -/
theorem animation_commands_trace_spec_witness :
    ((bot_glasses_run (fun _ => false)).filter ChatAction.isEdit).length ≤ 1
    ∧ editTexts (bot_deal_run (fun _ => true)) = bot_deal_frames :=
  ⟨(animation_commands_trace_spec (fun _ => false)).1.2.2.2.1 0 rfl,
   (animation_commands_trace_spec (fun _ => true)).2.2.2.2.2 (fun _ _ => rfl)⟩

theorem headBlocked_lt (t : List Char) : headBlocked ('<' :: t) := by
  intro c hc
  injection hc with hc
  subst hc
  exact ⟨by decide, by decide, by decide, by decide⟩

theorem takeWhile_append_blocked {p : Char → Bool} :
    ∀ (a b : List Char), (∀ c, b.head? = some c → p c = false) →
      (a ++ b).takeWhile p = a.takeWhile p
      ∧ (a ++ b).dropWhile p = a.dropWhile p ++ b := by
  intro a
  induction a with
  | nil =>
      intro b hb
      constructor
      · cases b with
        | nil => rfl
        | cons c bs => simp [List.takeWhile_cons, hb c rfl]
      · cases b with
        | nil => simp
        | cons c bs => simp [List.dropWhile_cons, hb c rfl]
  | cons x a' ih =>
      intro b hb
      obtain ⟨h1, h2⟩ := ih b hb
      constructor
      · simp only [List.cons_append, List.takeWhile_cons]
        cases hx : p x <;> simp [h1]
      · simp only [List.cons_append, List.dropWhile_cons]
        cases hx : p x <;> simp [h2]

theorem matchMention_not_head {c : Char} (t : List Char) (h : c ≠ '<') :
    matchMention (c :: t) = none := by
  rcases t with _ | ⟨c2, t'⟩
  · rfl
  · unfold matchMention
    simp only
    rw [if_neg (fun hand => h hand.1)]

theorem matchMention_lt_not_at {c : Char} (t : List Char) (h : c ≠ '@') :
    matchMention ('<' :: c :: t) = none := by
  unfold matchMention
  simp only
  rw [if_neg (fun hand => h hand.2)]

theorem mentionRemainder_head_blocked {v : List Char}
    (hv : ∀ c, v.head? = some c → Char.isDigit c = false) :
    mentionRemainder v = none := by
  cases v with
  | nil => rfl
  | cons c t =>
      unfold mentionRemainder
      rw [List.takeWhile_cons, hv c rfl]
      simp

theorem matchMentionBody_blocked {v : List Char} (hv : headBlocked v) :
    matchMentionBody v = none := by
  cases v with
  | nil => rfl
  | cons c3 t =>
      unfold matchMentionBody
      simp only
      rw [if_neg ((hv c3 rfl).2.1)]
      rw [mentionRemainder_head_blocked (fun c hc => by
        injection hc with hc
        subst hc
        exact (hv c3 rfl).2.2.2)]

theorem mentionRemainder_none_congr (x : List Char) {w w' : List Char}
    (hw : headBlocked w) (hw' : headBlocked w')
    (h : mentionRemainder (x ++ w) = none) :
    mentionRemainder (x ++ w') = none := by
  have hbw : ∀ c, w.head? = some c → Char.isDigit c = false :=
    fun c hc => (hw c hc).2.2.2
  have hbw' : ∀ c, w'.head? = some c → Char.isDigit c = false :=
    fun c hc => (hw' c hc).2.2.2
  obtain ⟨ht, hd⟩ := takeWhile_append_blocked x w hbw
  obtain ⟨ht', hd'⟩ := takeWhile_append_blocked x w' hbw'
  unfold mentionRemainder at h ⊢
  rw [ht, hd] at h
  rw [ht', hd']
  by_cases he : (x.takeWhile Char.isDigit).isEmpty = true
  · rw [if_pos he]
  · rw [if_neg he] at h ⊢
    cases hdx : x.dropWhile Char.isDigit with
    | cons b bs =>
        rw [hdx] at h
        simp only [List.cons_append] at h ⊢
        by_cases hb : b = '>'
        · rw [if_pos hb] at h
          exact absurd h (by simp)
        · rw [if_neg hb]
    | nil =>
        simp only [List.nil_append]
        rcases w' with _ | ⟨c', t'⟩
        · rfl
        · simp only
          rw [if_neg ((hw' c' rfl).2.2.1)]

theorem matchMentionBody_none_congr (x : List Char) {w w' : List Char}
    (hw : headBlocked w) (hw' : headBlocked w')
    (h : matchMentionBody (x ++ w) = none) :
    matchMentionBody (x ++ w') = none := by
  rcases x with _ | ⟨c3, x3⟩
  · exact matchMentionBody_blocked hw'
  · simp only [List.cons_append] at h ⊢
    unfold matchMentionBody at h ⊢
    simp only at h ⊢
    by_cases hc3 : c3 = '&'
    · rw [if_pos hc3] at h ⊢
      cases hmr : mentionRemainder (x3 ++ w) with
      | some pr =>
          rcases pr with ⟨body, r4⟩
          rw [hmr] at h
          simp at h
      | none =>
          rw [mentionRemainder_none_congr x3 hw hw' hmr]
    · rw [if_neg hc3] at h ⊢
      cases hmr : mentionRemainder (c3 :: (x3 ++ w)) with
      | some pr =>
          rcases pr with ⟨body, r4⟩
          rw [hmr] at h
          simp at h
      | none =>
          have h0 : mentionRemainder ((c3 :: x3) ++ w) = none := by
            simpa using hmr
          have h2 := mentionRemainder_none_congr (c3 :: x3) hw hw' h0
          rw [show (c3 :: x3) ++ w' = c3 :: (x3 ++ w') from rfl] at h2
          rw [h2]

theorem matchMention_none_congr (x : List Char) (hx : x ≠ []) {w w' : List Char}
    (hw : headBlocked w) (hw' : headBlocked w')
    (h : matchMention (x ++ w) = none) : matchMention (x ++ w') = none := by
  rcases x with _ | ⟨a, x'⟩
  · exact absurd rfl hx
  rcases x' with _ | ⟨b, x''⟩
  · by_cases ha : a = '<'
    · subst ha
      rcases w' with _ | ⟨c', t'⟩
      · rfl
      · exact matchMention_lt_not_at t' ((hw' c' rfl).1)
    · exact matchMention_not_head _ ha
  · simp only [List.cons_append] at h ⊢
    by_cases hab : a = '<' ∧ b = '@'
    · obtain ⟨ha, hb⟩ := hab
      subst ha; subst hb
      have h' : matchMentionBody (x'' ++ w) = none := h
      exact (matchMentionBody_none_congr x'' hw hw' h' :
        matchMentionBody (x'' ++ w') = none)
    · unfold matchMention
      simp only
      rw [if_neg hab]

theorem escapeAt_no_at {t : List Char} (h : ∀ c ∈ t, c ≠ '@') : escapeAt t = t := by
  induction t with
  | nil => rfl
  | cons c cs ih =>
      unfold escapeAt
      rw [if_neg (h c (List.mem_cons_self c cs))]
      rw [ih (fun c hc => h c (List.mem_cons_of_mem _ hc))]
      rfl

theorem mention_tail_no_at {amp ds : List Char}
    (hamp : amp = [] ∨ amp = ['&']) (hdig : ds.all Char.isDigit = true) :
    ∀ c ∈ amp ++ ds ++ ['>'], c ≠ '@' ∧ c ≠ '<' := by
  intro c hc
  rcases List.mem_append.1 hc with hc | hc
  · rcases List.mem_append.1 hc with hc | hc
    · rcases hamp with ha | ha <;> subst ha
      · simp at hc
      · simp only [List.mem_singleton] at hc
        subst hc
        exact ⟨by decide, by decide⟩
    · have hd := List.all_eq_true.1 hdig c hc
      constructor
      · intro he; subst he; exact absurd hd (by decide)
      · intro he; subst he; exact absurd hd (by decide)
  · simp only [List.mem_singleton] at hc
    subst hc
    exact ⟨by decide, by decide⟩

theorem escapeAt_mention {amp ds : List Char}
    (hamp : amp = [] ∨ amp = ['&']) (hdig : ds.all Char.isDigit = true) :
    escapeAt ('<' :: '@' :: (amp ++ ds ++ ['>']))
      = '<' :: '\\' :: '@' :: (amp ++ ds ++ ['>']) := by
  unfold escapeAt
  rw [if_neg (by decide)]
  unfold escapeAt
  rw [if_pos rfl]
  rw [escapeAt_no_at (fun c hc => (mention_tail_no_at hamp hdig c hc).1)]
  rfl

theorem escaped_mention_suffix_none {amp ds : List Char}
    (hamp : amp = [] ∨ amp = ['&']) (hdig : ds.all Char.isDigit = true) :
    ∀ y, y <:+ escapeAt ('<' :: '@' :: (amp ++ ds ++ ['>'])) → y ≠ [] →
      ∀ Q, matchMention (y ++ Q) = none := by
  rw [escapeAt_mention hamp hdig]
  intro y hy hyne Q
  rcases List.suffix_cons_iff.1 hy with hy | hy
  · subst hy
    simp only [List.cons_append]
    exact matchMention_lt_not_at _ (by decide)
  rcases List.suffix_cons_iff.1 hy with hy | hy
  · subst hy
    simp only [List.cons_append]
    exact matchMention_not_head _ (by decide)
  rcases List.suffix_cons_iff.1 hy with hy | hy
  · subst hy
    simp only [List.cons_append]
    exact matchMention_not_head _ (by decide)
  · rcases y with _ | ⟨c, y'⟩
    · exact absurd rfl hyne
    · have hcmem : c ∈ amp ++ ds ++ ['>'] :=
        hy.sublist.subset (List.mem_cons_self _ _)
      simp only [List.cons_append]
      exact matchMention_not_head _ (mention_tail_no_at hamp hdig c hcmem).2

theorem suffix_append_cases {α : Type} :
    ∀ (a b w : List α), w <:+ a ++ b →
      w <:+ b ∨ ∃ x, x <:+ a ∧ x ≠ [] ∧ w = x ++ b := by
  intro a
  induction a with
  | nil =>
      intro b w hw
      exact Or.inl (by simpa using hw)
  | cons c a' ih =>
      intro b w hw
      rcases List.suffix_cons_iff.1 (by simpa using hw) with hw2 | hw2
      · exact Or.inr ⟨c :: a', List.suffix_refl _, by simp, by simpa using hw2⟩
      · rcases ih b w hw2 with h | ⟨x, hx, hxne, hxe⟩
        · exact Or.inl h
        · exact Or.inr ⟨x, hx.trans (List.suffix_cons c a'), hxne, hxe⟩

theorem findMention_none_suffixes : ∀ {cs : List Char}, findMention cs = none →
    ∀ w, w <:+ cs → matchMention w = none := by
  intro cs
  induction cs with
  | nil =>
      intro _ w hw
      rw [List.suffix_nil.1 hw]
      rfl
  | cons c cs ih =>
      intro h w hw
      unfold findMention at h
      cases hmc : matchMention (c :: cs) with
      | some pr =>
          rw [hmc] at h
          rcases pr with ⟨m, r⟩
          simp at h
      | none =>
          rw [hmc] at h
          simp only at h
          cases hfm : findMention cs with
          | some pr =>
              rw [hfm] at h
              rcases pr with ⟨p, m, r⟩
              simp at h
          | none =>
              rcases List.suffix_cons_iff.1 hw with hw2 | hw2
              · subst hw2; exact hmc
              · exact ih hfm w hw2

theorem filter_mentions_eq_none {cs : List Char} (h : findMention cs = none) :
    filter_mentions cs = cs := by
  rw [filter_mentions]
  split
  · rfl
  · rename_i p m r heq
    rw [h] at heq
    cases heq

theorem filter_mentions_eq_some {cs p m r : List Char}
    (h : findMention cs = some (p, m, r)) :
    filter_mentions cs = p ++ escapeAt m ++ filter_mentions r := by
  rw [filter_mentions]
  split
  · rename_i heq
    rw [h] at heq
    cases heq
  · rename_i p' m' r' heq
    rw [h] at heq
    injection heq with heq
    injection heq with h1 heq
    injection heq with h2 h3
    rw [h1, h2, h3]

theorem filter_mentions_suffix_none :
    ∀ (n : Nat) (s : List Char), s.length ≤ n →
      ∀ w, w <:+ filter_mentions s → matchMention w = none := by
  intro n
  induction n with
  | zero =>
      intro s hs w hw
      have hnil : s = [] := List.length_eq_zero.1 (Nat.le_zero.1 hs)
      subst hnil
      rw [@filter_mentions_eq_none [] rfl] at hw
      rw [List.suffix_nil.1 hw]
      rfl
  | succ n ihn =>
      intro s hs w hw
      cases hfm : findMention s with
      | none =>
          rw [filter_mentions_eq_none hfm] at hw
          exact findMention_none_suffixes hfm w hw
      | some pr =>
          rcases pr with ⟨p, m, r⟩
          rw [filter_mentions_eq_some hfm] at hw
          obtain ⟨happ, hmatch, hmin⟩ := findMention_some hfm
          obtain ⟨amp, ds, hamp, hdsne, hdig, hmshape, -⟩ := matchMention_some hmatch
          have hrlen : r.length ≤ n := by
            have := findMention_some_length hfm
            omega
          rw [List.append_assoc] at hw
          rcases suffix_append_cases p (escapeAt m ++ filter_mentions r) w hw with
            hw2 | ⟨x, hx, hxne, hxe⟩
          · rcases suffix_append_cases (escapeAt m) (filter_mentions r) w hw2 with
              hw3 | ⟨y, hy, hyne, hye⟩
            · exact ihn r hrlen w hw3
            · subst hye
              rw [hmshape] at hy
              exact escaped_mention_suffix_none hamp hdig y hy hyne _
          · subst hxe
            have h0 := hmin x hx hxne
            have hbw : headBlocked (m ++ r) := by
              rw [hmshape]
              simp only [List.cons_append]
              exact headBlocked_lt _
            have hbw' : headBlocked (escapeAt m ++ filter_mentions r) := by
              rw [hmshape, escapeAt_mention hamp hdig]
              simp only [List.cons_append]
              exact headBlocked_lt _
            exact matchMention_none_congr x hxne hbw hbw' h0

theorem takeWhile_digits_append {ds : List Char}
    (hdig : ds.all Char.isDigit = true) (q : List Char) :
    (ds ++ '>' :: q).takeWhile Char.isDigit = ds
    ∧ (ds ++ '>' :: q).dropWhile Char.isDigit = '>' :: q := by
  induction ds with
  | nil =>
      constructor
      · rw [List.nil_append, List.takeWhile_cons]
        rw [show Char.isDigit '>' = false from rfl]
        rfl
      · rw [List.nil_append, List.dropWhile_cons]
        rw [show Char.isDigit '>' = false from rfl]
        rfl
  | cons d ds' ih =>
      have hd : Char.isDigit d = true :=
        List.all_eq_true.1 hdig d (List.mem_cons_self _ _)
      have hall : ds'.all Char.isDigit = true :=
        List.all_eq_true.2 (fun c hc =>
          List.all_eq_true.1 hdig c (List.mem_cons_of_mem _ hc))
      obtain ⟨ih1, ih2⟩ := ih hall
      constructor
      · rw [List.cons_append, List.takeWhile_cons, hd]
        simp only [if_true, ih1]
      · rw [List.cons_append, List.dropWhile_cons, hd]
        simp only [if_true, ih2]

theorem mentionRemainder_digits {ds : List Char} (hne : ds ≠ [])
    (hdig : ds.all Char.isDigit = true) (q : List Char) :
    mentionRemainder (ds ++ '>' :: q) = some (ds ++ ['>'], q) := by
  obtain ⟨h1, h2⟩ := takeWhile_digits_append hdig q
  have hde : ds.isEmpty = false := by
    cases ds with
    | nil => exact absurd rfl hne
    | cons _ _ => rfl
  unfold mentionRemainder
  rw [h1, h2]
  rw [if_neg (by rw [hde]; exact Bool.false_ne_true)]
  simp

theorem matchMention_mention_append {amp ds : List Char}
    (hamp : amp = [] ∨ amp = ['&']) (hne : ds ≠ [])
    (hdig : ds.all Char.isDigit = true) (q : List Char) :
    matchMention (('<' :: '@' :: (amp ++ ds ++ ['>'])) ++ q)
      = some ('<' :: '@' :: (amp ++ ds ++ ['>']), q) := by
  have hq : (amp ++ ds ++ ['>']) ++ q = amp ++ (ds ++ '>' :: q) := by
    simp
  have key : matchMentionBody ((amp ++ ds ++ ['>']) ++ q)
      = some ('<' :: '@' :: (amp ++ ds ++ ['>']), q) := by
    rw [hq]
    rcases hamp with h | h <;> subst h
    · rcases ds with _ | ⟨d, ds'⟩
      · exact absurd rfl hne
      · have hd : Char.isDigit d = true :=
          List.all_eq_true.1 hdig d (List.mem_cons_self _ _)
        have hdamp : d ≠ '&' := by
          intro he; subst he; exact absurd hd (by decide)
        have hmr : mentionRemainder (d :: (ds' ++ '>' :: q))
            = some ((d :: ds') ++ ['>'], q) := mentionRemainder_digits hne hdig q
        show matchMentionBody (d :: (ds' ++ '>' :: q)) = _
        unfold matchMentionBody
        simp only
        rw [if_neg hdamp, hmr]
        simp
    · have hmr := mentionRemainder_digits hne hdig q
      show matchMentionBody ('&' :: (ds ++ '>' :: q)) = _
      unfold matchMentionBody
      simp only
      rw [hmr]
      simp
  have : ('<' :: '@' :: (amp ++ ds ++ ['>'])) ++ q
      = '<' :: '@' :: ((amp ++ ds ++ ['>']) ++ q) := rfl
  rw [this]
  exact key

theorem findMention_isSome_of_matchMention {u : List Char}
    (hu : ∃ m rest, matchMention u = some (m, rest)) :
    ∀ p, (findMention (p ++ u)).isSome = true := by
  intro p
  induction p with
  | nil =>
      obtain ⟨m, rest, hm⟩ := hu
      rcases u with _ | ⟨c, u'⟩
      · simp [matchMention] at hm
      · simp only [List.nil_append]
        unfold findMention
        rw [hm]
        rfl
  | cons c p' ih =>
      simp only [List.cons_append]
      unfold findMention
      cases hmc : matchMention (c :: (p' ++ u)) with
      | some pr => rcases pr with ⟨m, r⟩; rfl
      | none =>
          simp only
          cases hf : findMention (p' ++ u) with
          | none => rw [hf] at ih; simp at ih
          | some pr => rcases pr with ⟨pp, mm, rr⟩; rfl

/-- C8: `filter_mentions` output never contains a well-formed mention
(`containsMention` — whose meaning is pinned down by the substring
characterisation in the first conjunct — is false on every output); text
containing no mention passes through unchanged; and a string that is
itself a mention comes out with its `@` escaped to `\@`. -/
theorem filter_mentions_spec (s : List Char) :
    ((∃ p m r, s = p ++ m ++ r ∧ isMention m = true) ↔ containsMention s = true)
    ∧ containsMention (filter_mentions s) = false
    ∧ (containsMention s = false → filter_mentions s = s)
    ∧ (isMention s = true → filter_mentions s = escapeAt s) := by
  refine ⟨⟨?_, ?_⟩, ?_, ?_, ?_⟩
  · rintro ⟨p, m, r, hs, hm⟩
    have hm' : matchMention m = some (m, []) := of_decide_eq_true hm
    obtain ⟨amp, ds, hamp, hne, hdig, hmshape, -⟩ := matchMention_some hm'
    have hmr : matchMention (m ++ r) = some (m, r) := by
      rw [hmshape]
      exact matchMention_mention_append hamp hne hdig r
    unfold containsMention
    subst hs
    rw [List.append_assoc]
    exact findMention_isSome_of_matchMention ⟨m, r, hmr⟩ p
  · intro hc
    unfold containsMention at hc
    cases hf : findMention s with
    | none => rw [hf] at hc; simp at hc
    | some pr =>
        rcases pr with ⟨p, m, r⟩
        obtain ⟨happ, hmatch, -⟩ := findMention_some hf
        obtain ⟨amp, ds, hamp, hne, hdig, hmshape, -⟩ := matchMention_some hmatch
        refine ⟨p, m, r, happ, ?_⟩
        apply decide_eq_true
        have hself := matchMention_mention_append hamp hne hdig []
        rw [← hmshape] at hself
        rw [show m ++ ([] : List Char) = m from by simp] at hself
        exact hself
  · cases hf : findMention (filter_mentions s) with
    | none => unfold containsMention; rw [hf]; rfl
    | some pr =>
        rcases pr with ⟨p, m, r⟩
        obtain ⟨happ, hmatch, -⟩ := findMention_some hf
        have hsuf : (m ++ r) <:+ filter_mentions s := by
          rw [happ, List.append_assoc]
          exact List.suffix_append p (m ++ r)
        have hnone := filter_mentions_suffix_none s.length s (le_refl _) (m ++ r) hsuf
        rw [hnone] at hmatch
        cases hmatch
  · intro hc
    unfold containsMention at hc
    cases hf : findMention s with
    | none => exact filter_mentions_eq_none hf
    | some pr => rw [hf] at hc; simp at hc
  · intro hs
    have hm' : matchMention s = some (s, []) := of_decide_eq_true hs
    obtain ⟨amp, ds, hamp, hne, hdig, hmshape, -⟩ := matchMention_some hm'
    have hm'' : matchMention ('<' :: '@' :: (amp ++ ds ++ ['>']))
        = some ('<' :: '@' :: (amp ++ ds ++ ['>']), []) := by
      rw [← hmshape]
      exact hm'
    have hfind : findMention s = some ([], s, []) := by
      rw [hmshape]
      unfold findMention
      rw [hm'']
    rw [filter_mentions_eq_some hfind, @filter_mentions_eq_none [] rfl]
    simp

/-- C8 (witness): a mention-free string passes through unchanged and a
lone mention gets its `@` escaped. -/
theorem filter_mentions_spec_witness :
    filter_mentions ['a', '@', 'b'] = ['a', '@', 'b']
    ∧ filter_mentions ['<', '@', '1', '2', '>']
        = escapeAt ['<', '@', '1', '2', '>'] :=
  ⟨(filter_mentions_spec ['a', '@', 'b']).2.2.1 (by decide),
   (filter_mentions_spec ['<', '@', '1', '2', '>']).2.2.2 (by decide)⟩

end Cerebot
